import Mathlib

/-!
# Verification of the `vector-commit` KZG scheme (SleepingShell/verkle-tree-rs)

Shallow embedding of the KZG vector-commitment instantiation found in
`src/vector-commit/src/kzg/mod.rs`, `src/vector-commit/src/precompute.rs`,
`src/vector-commit/src/utils.rs` and `src/vector-commit/src/lib.rs`.

Modelling choices, shared by every definition below:

* The scalar field `F` of the pairing engine is `ZMod p` for a prime `p`
  (the code is generic over any `PrimeField`).
* Group elements of `G1`, `G2` and the pairing target are modelled in
  exponent form: a group element `x • G` is represented by its scalar
  `x : ZMod p`.  Scalar multiplication becomes field multiplication, the
  group generator is `1`, and the bilinear pairing
  `e(a • G1, b • G2) = e(G1, G2) ^ (a * b)` is represented by the product
  `a * b`.  Equality of target-group elements is equality of exponents,
  which is faithful for a non-degenerate pairing on prime-order groups.
* The ark-works evaluation domain of size `n` is the set of powers of a
  primitive `n`-th root of unity `ω`; `domain.ifft` resizes its input to
  length `n` (zero-padding or truncating, as `Vec::resize` does) and then
  applies the inverse discrete Fourier transform with `1/n` scaling.
* Rust panics (out-of-bounds indexing, `unwrap` on `None`, field division
  by zero, which panics in ark-ff) are modelled by `Option`, `none` being
  the panic; the `Result` value of a Rust function becomes `Except`.
* The ordering `<`/`<=` on ark-ff prime-field elements compares canonical
  integer representatives, i.e. `ZMod.val`.
* `src/vector-commit/src/lagrange_basis.rs` and
  `src/vector-commit/src/kzg/kzg_point_generator.rs` are not part of the
  sources; the definitions that correspond to them are modelled from the
  specification and marked `Modelled from the spec:` in their doc string.
-/

namespace VectorCommit

/-- Error type of point generators (`src/vector-commit/src/lib.rs`,
`PointGeneratorError`): `OutOfBounds` and `InvalidPoint`. -/
inductive PointGeneratorError where
  | OutOfBounds
  | InvalidPoint
deriving DecidableEq, Repr

/-- Error type of the KZG scheme (`src/vector-commit/src/kzg/mod.rs`,
`KZGError`): `DefaultError` and `InvalidDomain`. -/
inductive KZGError where
  | DefaultError
  | InvalidDomain
deriving DecidableEq, Repr

/-- A KZG opening proof (`KZGProof` in `src/vector-commit/src/kzg/mod.rs`):
a `G1` quotient commitment (exponent form) together with the claimed
evaluation `y`. -/
structure KZGProofM (p : ℕ) where
  proof : ZMod p
  y : ZMod p
deriving DecidableEq, Repr

/-- Decidable equality for `Except`, so that concrete runs of the embedded
operations can be checked by `decide`. -/
instance {ε α : Type} [DecidableEq ε] [DecidableEq α] : DecidableEq (Except ε α) := fun a b =>
  match a, b with
  | .error e, .error f =>
    if h : e = f then .isTrue (by rw [h]) else .isFalse fun hh => h (by cases hh; rfl)
  | .error _, .ok _ => .isFalse fun hh => Except.noConfusion hh
  | .ok _, .error _ => .isFalse fun hh => Except.noConfusion hh
  | .ok a, .ok b =>
    if h : a = b then .isTrue (by rw [h]) else .isFalse fun hh => h (by cases hh; rfl)

section Model

variable (p : ℕ) [Fact p.Prime] (n : ℕ) (ω α : ZMod p)

/-- Field inversion of `ZMod p`, written via Fermat's little theorem as
`x ^ (p - 2)` so that it is computable by the kernel; it agrees with the
field inverse `x⁻¹` (`zinv_eq_inv_of_ne`, `zinv_eq_inv`).  This models the
ark-ff `inverse()` of a prime field element (junk value `0` when `x = 0`,
where ark-ff panics; every use below is guarded so that the zero case is
never reached on the paths the theorems describe). -/
def zinv (x : ZMod p) : ZMod p := x ^ (p - 2)

/-- Field division `a / b = a * b⁻¹` of ark-ff, in the computable form. -/
def zdiv (a b : ZMod p) : ZMod p := a * zinv p b

/-- `inner_product` from `src/vector-commit/src/utils.rs` (lines 16-19): it
iterates over `b` and indexes `a` at each position, so it panics (`none`)
exactly when `b` is longer than `a`. -/
def innerProduct (a b : List (ZMod p)) : Option (ZMod p) :=
  if h : b.length ≤ a.length then
    some (∑ i : Fin b.length, a.get ⟨i.1, lt_of_lt_of_le i.2 h⟩ * b.get i)
  else none

/-- Forward transform of an evaluation domain of size `N` with root of
unity `w` (external `EvaluationTransform` collaborator, ark-poly
`EvaluationDomain::fft`): the input is resized to `N` elements (zero-padded
or truncated) and the discrete Fourier transform is applied. -/
def fftList (N : ℕ) (w : ZMod p) (v : List (ZMod p)) : List (ZMod p) :=
  List.ofFn fun j : Fin N => ∑ k : Fin N, w ^ ((j : ℕ) * (k : ℕ)) * v.getD (k : ℕ) 0

/-- Inverse transform of an evaluation domain of size `N` with root of
unity `w` (ark-poly `EvaluationDomain::ifft`): resize to `N`, apply the
inverse discrete Fourier transform with `1/N` scaling. -/
def ifftList (N : ℕ) (w : ZMod p) (v : List (ZMod p)) : List (ZMod p) :=
  List.ofFn fun j : Fin N =>
    zinv p (N : ZMod p) * ∑ k : Fin N, (zinv p w) ^ ((j : ℕ) * (k : ℕ)) * v.getD (k : ℕ) 0

/-- `PrecomputedLagrange::compute_vanishing_evaluations` entry
(`src/vector-commit/src/precompute.rs`, lines 46-58): the evaluation of the
derivative of the vanishing polynomial at domain index `i`, namely
`n * (ω^i)⁻¹`. -/
def vanishingAt (i : ℕ) : ZMod p := (n : ZMod p) * zinv p (ω ^ i)

/-- Inverse entry of the vanishing-derivative table
(`vanishing_evaluations_inv` in `src/vector-commit/src/precompute.rs`). -/
def vanishingInverseAt (i : ℕ) : ZMod p := zinv p ((n : ZMod p) * zinv p (ω ^ i))

/-- `PrecomputedLagrange::compute_barycentric_coefficients`
(`src/vector-commit/src/precompute.rs`, lines 72-90).  Fast path: if
`point < F::from(size)` (comparison of canonical representatives), the unit
vector at index `to_usize(point)` is returned.  Otherwise
`t = (point^n - 1) / n` and `res_i = t * ω^i / (point - ω^i)`; ark-ff
division panics on a zero divisor, so the result is `none` when `n = 0` in
the field or when `point` equals some domain point `ω^i`. -/
def computeBarycentricCoefficients (point : ZMod p) : Option (Fin n → ZMod p) :=
  if point.val < (n : ZMod p).val then
    some (fun i => if (i : ℕ) = point.val then 1 else 0)
  else if (n : ZMod p) = 0 then none
  else if ∃ i : Fin n, point = ω ^ (i : ℕ) then none
  else some (fun i => zdiv p (zdiv p (point ^ n - 1) (n : ZMod p) * ω ^ (i : ℕ)) (point - ω ^ (i : ℕ)))

/-- Modelled from the spec: `LagrangeBasis::evaluate`
(`src/vector-commit/src/lagrange_basis.rs` is not under `src/`).  Spec
§4.2: "if `point` indexes one of the first `len` domain positions, return
the stored value directly (O(1)); else compute the barycentric coefficient
vector and return its inner product with the stored values".  The stored
vector always has the domain length `n` (spec §3 invariant). -/
def evaluate (f : Fin n → ZMod p) (point : ZMod p) : Option (ZMod p) :=
  if h : point.val < n then some (f ⟨point.val, h⟩)
  else (computeBarycentricCoefficients p n ω point).map fun b => ∑ j : Fin n, b j * f j

/-- Modelled from the spec: the value vector of
`LagrangeBasis::divide_by_vanishing` at domain index `i`
(`src/vector-commit/src/lagrange_basis.rs` is not under `src/`).  Spec
§4.2: "for position `j ≠ index`, `quotient[j] = (f(j) − f(index)) /
(ω^j − ω^index)`; at `j == index` the naive formula is 0/0 — resolve via
the precomputed vanishing derivative table".  The diagonal entry uses the
standard removable-singularity formula of the cited PCS-multiproofs
technique, `q_index = -∑_{j≠index} q_j · A'(ω^index) / A'(ω^j)`, expressed
with the two precomputed tables. -/
def qInDomain (f : Fin n → ZMod p) (i : Fin n) : Fin n → ZMod p := fun j =>
  if j = i then
    -∑ j' ∈ Finset.univ.erase i,
      (zdiv p (f j' - f i) (ω ^ (j' : ℕ) - ω ^ (i : ℕ))) *
        (vanishingAt p n ω (i : ℕ) * vanishingInverseAt p n ω (j' : ℕ))
  else zdiv p (f j - f i) (ω ^ (j : ℕ) - ω ^ (i : ℕ))

/-- Modelled from the spec: `LagrangeBasis::divide_by_vanishing` with the
raw index received from `to_usize(point)` in `prove_point`.  The vanishing
tables of `src/vector-commit/src/precompute.rs` have length `n`, so an
index `≥ n` is an out-of-bounds panic (`none`). -/
def divideByVanishing (f : Fin n → ZMod p) (idx : ℕ) : Option (Fin n → ZMod p) :=
  if h : idx < n then some (qInDomain p n ω f ⟨idx, h⟩) else none

/-- Modelled from the spec: `LagrangeBasis::divive_by_vanishing_outside_domain`
(name as at the call site in `src/vector-commit/src/kzg/mod.rs`, line 147;
the file defining it is not under `src/`).  Spec §4.2: "same construction
for an evaluation point outside the domain, where no singularity exists
since `point ≠ ω^i` for any `i`": `quotient[j] = (f(j) − f(point)) /
(ω^j − point)`, with `f(point)` the barycentric evaluation; a division by
zero (when `point` does lie in the domain) panics. -/
def diviveByVanishingOutsideDomain (f : Fin n → ZMod p) (point : ZMod p) :
    Option (Fin n → ZMod p) :=
  (evaluate p n ω f point).bind fun y =>
    if ∃ j : Fin n, point = ω ^ (j : ℕ) then none
    else some fun j => zdiv p (f j - y) (ω ^ (j : ℕ) - point)

/-- Modelled from the spec: preparing a data vector as a `LagrangeBasis`
over the domain of size `n` (`LagrangeBasis::from_vec_and_domain`; the file
is not under `src/`).  Spec §3: the stored sequence has length equal to the
domain size; spec §8: data is implicitly zero-padded beyond its own
length. -/
def padData (d : List (ZMod p)) : Fin n → ZMod p := fun j => d.getD (j : ℕ) 0

/-- The `lagrange_commitments` of the key produced by `KZG::setup`
(`src/vector-commit/src/kzg/mod.rs`, lines 119-123) in exponent form:
`setup` requests the structured points `α^i • G1` from the point generator
(`kzg_point_generator.rs` is not under `src/`; modelled from the spec §4.4
"request `maxItems` structured points", the SRS of the trapdoor `α`) and
applies `domain.ifft` to them, so the `j`-th Lagrange commitment is
`(1/n) ∑_k ω^(-j*k) * α^k`. -/
def lagrangeCommitments : Fin n → ZMod p := fun j =>
  zinv p (n : ZMod p) * ∑ k : Fin n, (zinv p ω) ^ ((j : ℕ) * (k : ℕ)) * α ^ (k : ℕ)

/-- `KZG::commit` (`src/vector-commit/src/kzg/mod.rs`, lines 126-134):
`Ok(inner_product(&key.lagrange_commitments, data.elements_ref()))`.
There is no bound check; `inner_product` panics when the data is longer
than the key. -/
def commit (d : List (ZMod p)) : Option (Except KZGError (ZMod p)) :=
  (innerProduct p (List.ofFn (lagrangeCommitments p n ω α)) d).map .ok

/-- The bilinear pairing in exponent form: `e(a • G1, b • G2)` is
represented by the exponent `a * b` of `e(G1, G2)`. -/
def pairing (a b : ZMod p) : ZMod p := a * b

/-- `KZG::prove_point` (`src/vector-commit/src/kzg/mod.rs`, lines 136-154):
evaluate the data at `point`; if `point <= F::from(max_size)` divide by the
vanishing polynomial at index `to_usize(point)`, else use the
outside-domain division; commit to the quotient with `inner_product`.
The unused `commitment` argument of the Rust function is omitted. -/
def provePoint (d : Fin n → ZMod p) (point : ZMod p) : Option (KZGProofM p) :=
  (evaluate p n ω d point).bind fun ev =>
    (if point.val ≤ (n : ZMod p).val then divideByVanishing p n ω d point.val
     else diviveByVanishingOutsideDomain p n ω d point).bind fun q =>
      (innerProduct p (List.ofFn (lagrangeCommitments p n ω α)) (List.ofFn q)).map fun w =>
        ⟨w, ev⟩

/-- `KZG::verify_point` (`src/vector-commit/src/kzg/mod.rs`, lines
165-189): map the point to `ω ^ to_usize(point)` when
`point < F::from(max_size)`, else use the raw point; then compare
`e(proof, α•G2 - p•G2)` with `e(C - y•G1, G2)`.  In exponent form the two
pairings are `proof * (α - p)` and `(C - y) * 1`.  The Rust function always
returns `Ok(bool)`, so the `Result` wrapper is dropped. -/
def verifyPoint (C : ZMod p) (point : ZMod p) (pf : KZGProofM p) : Bool :=
  let pp := if point.val < (n : ZMod p).val then ω ^ point.val else point
  decide (pairing p pf.proof (α - pp) = pairing p (C - pf.y) 1)

/-- `VectorCommitment::prove` default method (`src/vector-commit/src/lib.rs`,
lines 111-124): `prove_point` at the field element of the index. -/
def prove (d : Fin n → ZMod p) (index : ℕ) : Option (KZGProofM p) :=
  provePoint p n ω α d (index : ZMod p)

/-- `VectorCommitment::verify` default method (`src/vector-commit/src/lib.rs`,
lines 144-157): `verify_point` at the field element of the index. -/
def verify (C : ZMod p) (index : ℕ) (pf : KZGProofM p) : Bool :=
  verifyPoint p n ω α C (index : ZMod p) pf

/-- A point generator (`PointGenerator` trait of
`src/vector-commit/src/lib.rs`, lines 184-191) in exponent form: `gen`
produces `G1` points or a `PointGeneratorError`, `secret` optionally
reveals the trapdoor scalar. -/
structure KZGGen (p : ℕ) where
  gen : ℕ → Except PointGeneratorError (List (ZMod p))
  secret : Option (ZMod p)

/-- The universal parameters built by `KZG::setup` (`KZGKey` of
`src/vector-commit/src/kzg/mod.rs`): its `size` is the length of the
Lagrange-commitment vector, and `g2` is the trapdoor-scaled `G2` generator
in exponent form. -/
structure KZGKeyM (p : ℕ) where
  size : ℕ
  lagrangeCommitments : List (ZMod p)
  g2 : ZMod p
deriving DecidableEq, Repr

/-- `KZG::setup` (`src/vector-commit/src/kzg/mod.rs`, lines 115-124):
`gen.gen(max_items)?`, then `D::new(max_items).unwrap()` (panic when no
domain exists, modelled by the external provider `domainNew` returning the
domain size and root of unity), then `domain.ifft(&g1_points)`, then
`E::G2::generator() * gen.secret().unwrap()` (panic when the secret is
absent). -/
def setup (domainNew : ℕ → Option (ℕ × ZMod p)) (maxItems : ℕ) (g : KZGGen p) :
    Option (Except PointGeneratorError (KZGKeyM p)) :=
  match g.gen maxItems with
  | .error e => some (.error e)
  | .ok pts =>
    match domainNew maxItems with
    | none => none
    | some (N, w) =>
      let points := ifftList p N w pts
      match g.secret with
      | none => none
      | some s => some (.ok ⟨points.length, points, 1 * s⟩)

/-- Trailing-zero stripping done by ark-poly
`DensePolynomial::from_coefficients_vec`, used by `interpolate()`. -/
def trimTrailingZeros (l : List (ZMod p)) : List (ZMod p) :=
  (l.reverse.dropWhile fun x => decide (x = 0)).reverse

/-- `KZG::prove_all_points` (`src/vector-commit/src/kzg/mod.rs`, lines
200-234) over the key with Lagrange commitments `lagrangeCommitments`:
interpolate the data (ifft over the key's domain, trailing zeros stripped),
read `degree` (`coeffs[degree]` panics when the polynomial is zero), get a
domain of size `degree * 2` from the external provider (`InvalidDomain`
when none exists), build `c_hat` and `s_hat` (the latter from
`key.precompute().domain().ifft(&key.lagrange_commitments)`), transform,
multiply pointwise (`elementwise_mul`), inverse-transform, and map every
entry `i` of the result to a proof with evaluation `data[i]` — an
out-of-bounds panic when the result is longer than the data. -/
def proveAllPoints (domainNew : ℕ → Option (ℕ × ZMod p)) (d : Fin n → ZMod p) :
    Option (Except KZGError (List (KZGProofM p))) :=
  let coeffs := trimTrailingZeros p (ifftList p n ω (List.ofFn d))
  if coeffs.isEmpty then none
  else
    let degree := coeffs.length - 1
    match domainNew (degree * 2) with
    | none => some (.error .InvalidDomain)
    | some (N, w2) =>
      let cHat := coeffs.getD degree 0 :: (List.replicate (degree + 1) 0 ++ coeffs.take degree)
      let g1 := ifftList p n ω (List.ofFn (lagrangeCommitments p n ω α))
      let sHat := (g1.take degree).reverse ++ List.replicate (N - degree) 0
      let yv := fftList p N w2 cHat
      let vv := fftList p N w2 sHat
      let u := List.zipWith (· * ·) vv yv
      let hHat := ifftList p N w2 u
      if hN : N ≤ n then
        some (.ok ((List.finRange N).map fun (i : Fin N) =>
          ⟨hHat.getD (i : ℕ) 0, d ⟨(i : ℕ), lt_of_lt_of_le i.isLt hN⟩⟩))
      else none

end Model

instance : Fact (Nat.Prime 17) := ⟨by norm_num⟩

instance : Fact (Nat.Prime 13) := ⟨by norm_num⟩

/-! ## Helper lemmas -/

section Lemmas

variable {p : ℕ} [Fact p.Prime] {n : ℕ} {ω α : ZMod p}

theorem zinv_eq_inv_of_ne {x : ZMod p} (hx : x ≠ 0) : zinv p x = x⁻¹ := by
  have hp : 2 ≤ p := (Fact.out : p.Prime).two_le
  have h2 : p - 2 + 1 = p - 1 := by omega
  have h1 : x * x ^ (p - 2) = 1 := by
    rw [← pow_succ', h2, ZMod.pow_card_sub_one_eq_one hx]
  exact (inv_eq_of_mul_eq_one_right h1).symm

theorem zdiv_eq_div (a : ZMod p) {b : ZMod p} (hb : b ≠ 0) : zdiv p a b = a / b := by
  rw [zdiv, zinv_eq_inv_of_ne hb, div_eq_mul_inv]

theorem isPrimRoot_of (hn : 0 < n) (hω1 : ω ^ n = 1)
    (hω2 : ∀ l, l < n → 0 < l → ω ^ l ≠ 1) : IsPrimitiveRoot ω n := by
  refine ⟨hω1, fun l hl => ?_⟩
  have hmod : ω ^ (l % n) = 1 := by
    conv at hl => rw [← Nat.div_add_mod l n]
    rwa [pow_add, pow_mul, hω1, one_pow, one_mul] at hl
  rcases Nat.eq_zero_or_pos (l % n) with h0 | hpos
  · exact Nat.dvd_of_mod_eq_zero h0
  · exact absurd hmod (hω2 _ (Nat.mod_lt _ hn) hpos)

theorem root_ne_zero (hn : 0 < n) (hω1 : ω ^ n = 1) : ω ≠ 0 := by
  intro h
  rw [h, zero_pow hn.ne.symm] at hω1
  exact zero_ne_one hω1

theorem natCast_n_ne_zero (hn : 0 < n) (hnp : n < p) : (n : ZMod p) ≠ 0 := by
  haveI : NeZero p := ⟨(Fact.out : p.Prime).ne_zero⟩
  intro h
  have hv := ZMod.val_cast_of_lt hnp
  rw [h, ZMod.val_zero] at hv
  exact hn.ne hv

theorem pow_sub_ne_zero (hn : 0 < n) (hω1 : ω ^ n = 1)
    (hω2 : ∀ l, l < n → 0 < l → ω ^ l ≠ 1) {i j : Fin n} (hij : j ≠ i) :
    ω ^ (j : ℕ) - ω ^ (i : ℕ) ≠ 0 := by
  refine sub_ne_zero.mpr fun h => hij (Fin.ext ?_)
  exact (isPrimRoot_of hn hω1 hω2).pow_inj j.isLt i.isLt h

theorem sum_pow_root_eq_zero {x : ZMod p} (hx1 : x ^ n = 1) (hx : x ≠ 1) :
    ∑ k : Fin n, x ^ (k : ℕ) = 0 := by
  rw [Fin.sum_univ_eq_sum_range]
  have h2 : (∑ i ∈ Finset.range n, x ^ i) * (x - 1) = 0 := by
    rw [geom_sum_mul, hx1, sub_self]
  rcases mul_eq_zero.mp h2 with h | h
  · exact h
  · exact absurd (sub_eq_zero.mp h) hx

theorem innerProduct_ofFn (f g : Fin n → ZMod p) :
    innerProduct p (List.ofFn f) (List.ofFn g) = some (∑ j : Fin n, f j * g j) := by
  unfold innerProduct
  rw [dif_pos (by simp)]
  congr 1
  have hlen : (List.ofFn g).length = n := List.length_ofFn g
  refine Fintype.sum_equiv (finCongr hlen) _ _ fun i => ?_
  rw [List.get_ofFn, List.get_ofFn]
  rfl

theorem lagC_eq_geom (hn : 0 < n) (hnp : n < p) (hω1 : ω ^ n = 1) (j : Fin n) :
    lagrangeCommitments p n ω α j =
      (n : ZMod p)⁻¹ * ∑ k : Fin n, ((ω⁻¹) ^ (j : ℕ) * α) ^ (k : ℕ) := by
  unfold lagrangeCommitments
  rw [zinv_eq_inv_of_ne (natCast_n_ne_zero hn hnp),
    zinv_eq_inv_of_ne (root_ne_zero hn hω1)]
  congr 1
  refine Finset.sum_congr rfl fun k _ => ?_
  rw [mul_pow, ← pow_mul]

theorem geom_factor (hn : 0 < n) (hω1 : ω ^ n = 1) (j : Fin n) :
    (α - ω ^ (j : ℕ)) * (∑ k : Fin n, ((ω⁻¹) ^ (j : ℕ) * α) ^ (k : ℕ)) =
      ω ^ (j : ℕ) * (α ^ n - 1) := by
  have hωne : ω ≠ 0 := root_ne_zero hn hω1
  set x : ZMod p := (ω⁻¹) ^ (j : ℕ) * α with hx
  have hxn : x ^ n = α ^ n := by
    rw [hx, mul_pow, ← pow_mul, mul_comm (j : ℕ) n, pow_mul, inv_pow, hω1, inv_one, one_pow,
      one_mul]
  have hfac : α - ω ^ (j : ℕ) = ω ^ (j : ℕ) * (x - 1) := by
    rw [hx, mul_sub, mul_one, ← mul_assoc, inv_pow, mul_inv_cancel₀ (pow_ne_zero _ hωne),
      one_mul]
  rw [hfac, mul_assoc, Fin.sum_univ_eq_sum_range, mul_comm (x - 1), geom_sum_mul, hxn]

theorem sum_G (hn : 0 < n) (hω1 : ω ^ n = 1)
    (hω2 : ∀ l, l < n → 0 < l → ω ^ l ≠ 1) :
    ∑ j : Fin n, (∑ k : Fin n, ((ω⁻¹) ^ (j : ℕ) * α) ^ (k : ℕ)) = (n : ZMod p) := by
  have hωne : ω ≠ 0 := root_ne_zero hn hω1
  have hswap : ∀ j k : Fin n, ((ω⁻¹) ^ (j : ℕ) * α) ^ (k : ℕ) =
      ((ω⁻¹) ^ (k : ℕ)) ^ (j : ℕ) * α ^ (k : ℕ) := by
    intro j k
    rw [mul_pow, ← pow_mul, ← pow_mul, Nat.mul_comm]
  simp only [hswap]
  rw [Finset.sum_comm]
  have hterm : ∀ k : Fin n,
      (∑ j : Fin n, ((ω⁻¹) ^ (k : ℕ)) ^ (j : ℕ) * α ^ (k : ℕ)) =
        if (k : ℕ) = 0 then (n : ZMod p) else 0 := by
    intro k
    rw [← Finset.sum_mul]
    by_cases hk : (k : ℕ) = 0
    · simp [hk, Finset.card_univ]
    · rw [if_neg hk]
      have hx1 : ((ω⁻¹) ^ (k : ℕ)) ^ n = 1 := by
        rw [← pow_mul, mul_comm, pow_mul, inv_pow, hω1, inv_one, one_pow]
      have hxne : (ω⁻¹) ^ (k : ℕ) ≠ 1 := by
        rw [inv_pow]
        intro h
        have := inv_eq_one.mp h
        exact hω2 _ k.isLt (Nat.pos_of_ne_zero hk) this
      rw [sum_pow_root_eq_zero hx1 hxne, zero_mul]
  rw [Finset.sum_congr rfl fun k _ => hterm k]
  rw [Finset.sum_eq_single (⟨0, hn⟩ : Fin n)]
  · rfl
  · intro b _ hb
    exact if_neg fun h => hb (Fin.ext h)
  · intro h
    exact absurd (Finset.mem_univ _) h

theorem sum_omega_qIn (hn : 0 < n) (hnp : n < p) (hω1 : ω ^ n = 1)
    (f : Fin n → ZMod p) (i : Fin n) :
    ∑ j : Fin n, ω ^ (j : ℕ) * qInDomain p n ω f i j = 0 := by
  have hωne : ω ≠ 0 := root_ne_zero hn hω1
  have hN : (n : ZMod p) ≠ 0 := natCast_n_ne_zero hn hnp
  rw [← Finset.add_sum_erase _ _ (Finset.mem_univ i)]
  have hdiag : qInDomain p n ω f i i =
      -∑ j' ∈ Finset.univ.erase i,
        (zdiv p (f j' - f i) (ω ^ (j' : ℕ) - ω ^ (i : ℕ))) *
          (vanishingAt p n ω (i : ℕ) * vanishingInverseAt p n ω (j' : ℕ)) := by
    unfold qInDomain
    rw [if_pos rfl]
  have hoff : ∀ j ∈ Finset.univ.erase i, ω ^ (j : ℕ) * qInDomain p n ω f i j =
      ω ^ (j : ℕ) * (zdiv p (f j - f i) (ω ^ (j : ℕ) - ω ^ (i : ℕ))) := by
    intro j hj
    unfold qInDomain
    rw [if_neg (Finset.ne_of_mem_erase hj)]
  rw [Finset.sum_congr rfl hoff, hdiag, mul_neg, Finset.mul_sum]
  rw [neg_add_eq_zero]
  refine Finset.sum_congr rfl fun j hj => ?_
  have h1 : (ω : ZMod p) ^ (i : ℕ) ≠ 0 := pow_ne_zero _ hωne
  have h2 : (ω : ZMod p) ^ (j : ℕ) ≠ 0 := pow_ne_zero _ hωne
  unfold vanishingAt vanishingInverseAt
  rw [zinv_eq_inv_of_ne h1, zinv_eq_inv_of_ne h2,
    zinv_eq_inv_of_ne (mul_ne_zero hN (inv_ne_zero h2))]
  set D := zdiv p (f j - f i) (ω ^ (j : ℕ) - ω ^ (i : ℕ)) with hD
  field_simp
  ring

theorem commit_mul_sub (hn : 0 < n) (hnp : n < p) (hω1 : ω ^ n = 1)
    (hω2 : ∀ l, l < n → 0 < l → ω ^ l ≠ 1)
    (f q : Fin n → ZMod p) (z y : ZMod p)
    (Hq : ∀ j : Fin n, q j * (ω ^ (j : ℕ) - z) = f j - y)
    (Hs : ∑ j : Fin n, ω ^ (j : ℕ) * q j = 0) :
    (∑ j : Fin n, lagrangeCommitments p n ω α j * q j) * (α - z) =
      (∑ j : Fin n, lagrangeCommitments p n ω α j * f j) - y := by
  have hN : (n : ZMod p) ≠ 0 := natCast_n_ne_zero hn hnp
  have hlag : ∀ x : Fin n → ZMod p,
      (∑ j : Fin n, lagrangeCommitments p n ω α j * x j) =
        (n : ZMod p)⁻¹ * ∑ j : Fin n,
          (∑ k : Fin n, ((ω⁻¹) ^ (j : ℕ) * α) ^ (k : ℕ)) * x j := by
    intro x
    rw [Finset.mul_sum]
    refine Finset.sum_congr rfl fun j _ => ?_
    rw [lagC_eq_geom hn hnp hω1, mul_assoc]
  rw [hlag, hlag]
  have hmain : (∑ j : Fin n, (∑ k : Fin n, ((ω⁻¹) ^ (j : ℕ) * α) ^ (k : ℕ)) * q j) * (α - z) =
      (∑ j : Fin n, (∑ k : Fin n, ((ω⁻¹) ^ (j : ℕ) * α) ^ (k : ℕ)) * f j) -
        (n : ZMod p) * y := by
    rw [Finset.sum_mul]
    have hsplit : ∀ j : Fin n,
        (∑ k : Fin n, ((ω⁻¹) ^ (j : ℕ) * α) ^ (k : ℕ)) * q j * (α - z) =
          q j * ((α - ω ^ (j : ℕ)) * (∑ k : Fin n, ((ω⁻¹) ^ (j : ℕ) * α) ^ (k : ℕ))) +
            (∑ k : Fin n, ((ω⁻¹) ^ (j : ℕ) * α) ^ (k : ℕ)) * (q j * (ω ^ (j : ℕ) - z)) := by
      intro j
      ring
    rw [Finset.sum_congr rfl fun j _ => hsplit j, Finset.sum_add_distrib]
    have hleft : (∑ j : Fin n,
        q j * ((α - ω ^ (j : ℕ)) * (∑ k : Fin n, ((ω⁻¹) ^ (j : ℕ) * α) ^ (k : ℕ)))) = 0 := by
      rw [Finset.sum_congr rfl fun j _ => by rw [geom_factor hn hω1 j]]
      have : ∀ j : Fin n, q j * (ω ^ (j : ℕ) * (α ^ n - 1)) =
          (ω ^ (j : ℕ) * q j) * (α ^ n - 1) := fun j => by ring
      rw [Finset.sum_congr rfl fun j _ => this j, ← Finset.sum_mul, Hs, zero_mul]
    have hright : (∑ j : Fin n,
        (∑ k : Fin n, ((ω⁻¹) ^ (j : ℕ) * α) ^ (k : ℕ)) * (q j * (ω ^ (j : ℕ) - z))) =
          (∑ j : Fin n, (∑ k : Fin n, ((ω⁻¹) ^ (j : ℕ) * α) ^ (k : ℕ)) * f j) -
            (n : ZMod p) * y := by
      rw [Finset.sum_congr rfl fun j _ => by rw [Hq j]]
      have : ∀ j : Fin n, (∑ k : Fin n, ((ω⁻¹) ^ (j : ℕ) * α) ^ (k : ℕ)) * (f j - y) =
          (∑ k : Fin n, ((ω⁻¹) ^ (j : ℕ) * α) ^ (k : ℕ)) * f j -
            (∑ k : Fin n, ((ω⁻¹) ^ (j : ℕ) * α) ^ (k : ℕ)) * y := fun j => by ring
      rw [Finset.sum_congr rfl fun j _ => this j, Finset.sum_sub_distrib, ← Finset.sum_mul,
        sum_G hn hω1 hω2]
    rw [hleft, hright, zero_add]
  rw [mul_assoc, hmain, mul_sub, ← mul_assoc, inv_mul_cancel₀ hN, one_mul]

theorem qIn_spec (hn : 0 < n) (hω1 : ω ^ n = 1)
    (hω2 : ∀ l, l < n → 0 < l → ω ^ l ≠ 1) (f : Fin n → ZMod p) (i j : Fin n) :
    qInDomain p n ω f i j * (ω ^ (j : ℕ) - ω ^ (i : ℕ)) = f j - f i := by
  by_cases hj : j = i
  · subst hj
    simp
  · unfold qInDomain
    have hne := pow_sub_ne_zero hn hω1 hω2 hj
    rw [if_neg hj, zdiv_eq_div _ hne, div_mul_cancel₀ _ hne]

theorem evaluate_in_domain (hnp : n < p) (f : Fin n → ZMod p) {i : ℕ} (hi : i < n) :
    evaluate p n ω f ((i : ℕ) : ZMod p) = some (f ⟨i, hi⟩) := by
  have hvi : (((i : ℕ) : ZMod p)).val = i := ZMod.val_cast_of_lt (hi.trans hnp)
  unfold evaluate
  rw [dif_pos (show (((i : ℕ) : ZMod p)).val < n by rw [hvi]; exact hi)]
  congr 1
  congr 1
  exact Fin.ext hvi

theorem provePoint_in_domain (hn : 0 < n) (hnp : n < p) (hω1 : ω ^ n = 1)
    (hω2 : ∀ l, l < n → 0 < l → ω ^ l ≠ 1) (f : Fin n → ZMod p) {i : ℕ} (hi : i < n) :
    provePoint p n ω α f ((i : ℕ) : ZMod p) =
      some ⟨∑ j : Fin n, lagrangeCommitments p n ω α j * qInDomain p n ω f ⟨i, hi⟩ j,
        f ⟨i, hi⟩⟩ := by
  have hvi : (((i : ℕ) : ZMod p)).val = i := ZMod.val_cast_of_lt (hi.trans hnp)
  have hvn : (((n : ℕ) : ZMod p)).val = n := ZMod.val_cast_of_lt hnp
  unfold provePoint
  rw [evaluate_in_domain hnp f hi, Option.some_bind']
  rw [if_pos (show (((i : ℕ) : ZMod p)).val ≤ (((n : ℕ) : ZMod p)).val by
    rw [hvi, hvn]; exact hi.le)]
  unfold divideByVanishing
  rw [dif_pos (show (((i : ℕ) : ZMod p)).val < n by rw [hvi]; exact hi)]
  rw [Option.some_bind', innerProduct_ofFn, Option.map_some']
  have hFin : ∀ (h : (((i : ℕ) : ZMod p)).val < n),
      (⟨(((i : ℕ) : ZMod p)).val, h⟩ : Fin n) = ⟨i, hi⟩ := fun h => Fin.ext hvi
  simp only [hFin]

theorem verifyPoint_in_domain_iff (hnp : n < p) (C y W : ZMod p) {i : ℕ} (hi : i < n) :
    (verifyPoint p n ω α C ((i : ℕ) : ZMod p) ⟨W, y⟩ = true) ↔
      W * (α - ω ^ i) = C - y := by
  have hvi : (((i : ℕ) : ZMod p)).val = i := ZMod.val_cast_of_lt (hi.trans hnp)
  have hvn : (((n : ℕ) : ZMod p)).val = n := ZMod.val_cast_of_lt hnp
  unfold verifyPoint pairing
  rw [if_pos (show (((i : ℕ) : ZMod p)).val < (((n : ℕ) : ZMod p)).val by
    rw [hvi, hvn]; exact hi)]
  rw [hvi, decide_eq_true_eq, mul_one]

theorem deriv_prod_linear {β : Type} [DecidableEq β] (s : Finset β) (c : β → ZMod p) :
    Polynomial.derivative (∏ j ∈ s, (Polynomial.X - Polynomial.C (c j))) =
      ∑ j ∈ s, ∏ k ∈ s.erase j, (Polynomial.X - Polynomial.C (c k)) := by
  induction s using Finset.induction_on with
  | empty => simp
  | insert ha ih =>
    rename_i a s
    rw [Finset.prod_insert ha, Polynomial.derivative_mul, Polynomial.derivative_X_sub_C,
      one_mul, ih, Finset.sum_insert ha, Finset.erase_insert ha]
    congr 1
    rw [Finset.mul_sum]
    refine Finset.sum_congr rfl fun j hj => ?_
    rw [Finset.erase_insert_of_ne (fun h => ha (by rw [h]; exact hj)),
      Finset.prod_insert (fun h => ha (Finset.mem_of_mem_erase h))]

theorem prod_X_sub_pow (hn : 0 < n) (hprim : IsPrimitiveRoot ω n) :
    (Polynomial.X ^ n - 1 : Polynomial (ZMod p)) =
      ∏ j : Fin n, (Polynomial.X - Polynomial.C (ω ^ (j : ℕ))) := by
  haveI : NeZero n := ⟨hn.ne.symm⟩
  rw [Polynomial.X_pow_sub_one_eq_prod hn hprim]
  symm
  refine Finset.prod_bij (fun (j : Fin n) _ => ω ^ (j : ℕ)) ?_ ?_ ?_ ?_
  · intro j _
    exact (Polynomial.mem_nthRootsFinset hn).mpr
      (by rw [← pow_mul, mul_comm, pow_mul, hprim.pow_eq_one, one_pow])
  · intro j _ k _ h
    exact Fin.ext (hprim.pow_inj j.isLt k.isLt h)
  · intro x hx
    obtain ⟨i, hik, hival⟩ :=
      hprim.eq_pow_of_pow_eq_one ((Polynomial.mem_nthRootsFinset hn).mp hx)
    exact ⟨⟨i, hik⟩, Finset.mem_univ _, hival⟩
  · intro j _
    rfl

theorem eval_prod_form (hn : 0 < n) (hprim : IsPrimitiveRoot ω n) (z : ZMod p) :
    z ^ n - 1 = ∏ j : Fin n, (z - ω ^ (j : ℕ)) := by
  have h := congrArg (Polynomial.eval z) (prod_X_sub_pow hn hprim)
  simpa [Polynomial.eval_prod] using h

theorem eval_deriv_form (hn : 0 < n) (hprim : IsPrimitiveRoot ω n) (z : ZMod p) :
    (n : ZMod p) * z ^ (n - 1) =
      ∑ j : Fin n, ∏ k ∈ Finset.univ.erase j, (z - ω ^ (k : ℕ)) := by
  have h := congrArg Polynomial.derivative (prod_X_sub_pow hn hprim)
  rw [deriv_prod_linear, Polynomial.derivative_sub, Polynomial.derivative_one, sub_zero,
    Polynomial.derivative_X_pow] at h
  have h2 := congrArg (Polynomial.eval z) h
  simpa [Polynomial.eval_finset_sum, Polynomial.eval_prod] using h2

theorem vanish_ne_zero (hn : 0 < n) (hprim : IsPrimitiveRoot ω n) {z : ZMod p}
    (hz : ∀ j : Fin n, z ≠ ω ^ (j : ℕ)) : z ^ n - 1 ≠ 0 := by
  rw [eval_prod_form hn hprim z]
  exact Finset.prod_ne_zero_iff.mpr fun j _ => sub_ne_zero.mpr (hz j)

theorem sum_inv_linear (hn : 0 < n) (hprim : IsPrimitiveRoot ω n) {z : ZMod p}
    (hz : ∀ j : Fin n, z ≠ ω ^ (j : ℕ)) :
    ∑ j : Fin n, (z - ω ^ (j : ℕ))⁻¹ =
      (n : ZMod p) * z ^ (n - 1) * (z ^ n - 1)⁻¹ := by
  have hne := vanish_ne_zero hn hprim hz
  have hinv : ∀ j : Fin n, (z - ω ^ (j : ℕ))⁻¹ =
      (∏ k ∈ Finset.univ.erase j, (z - ω ^ (k : ℕ))) * (z ^ n - 1)⁻¹ := by
    intro j
    refine inv_eq_of_mul_eq_one_right ?_
    have hp : (z - ω ^ (j : ℕ)) * ∏ k ∈ Finset.univ.erase j, (z - ω ^ (k : ℕ)) =
        z ^ n - 1 := by
      rw [Finset.mul_prod_erase Finset.univ (fun k : Fin n => z - ω ^ (k : ℕ))
        (Finset.mem_univ j), ← eval_prod_form hn hprim]
    rw [← mul_assoc, hp, mul_inv_cancel₀ hne]
  rw [Finset.sum_congr rfl fun j _ => hinv j, ← Finset.sum_mul,
    ← eval_deriv_form hn hprim]

theorem sum_root_inv_sub (hn : 0 < n) (hprim : IsPrimitiveRoot ω n) {z : ZMod p}
    (hz : ∀ j : Fin n, z ≠ ω ^ (j : ℕ)) :
    ∑ j : Fin n, ω ^ (j : ℕ) * (ω ^ (j : ℕ) - z)⁻¹ =
      -(n : ZMod p) * (z ^ n - 1)⁻¹ := by
  have hne := vanish_ne_zero hn hprim hz
  have hsub : ∀ j : Fin n, (ω ^ (j : ℕ) - z : ZMod p) ≠ 0 := fun j =>
    sub_ne_zero.mpr (hz j).symm
  have hsplit : ∀ j : Fin n, ω ^ (j : ℕ) * (ω ^ (j : ℕ) - z)⁻¹ =
      1 + z * (ω ^ (j : ℕ) - z)⁻¹ := by
    intro j
    refine eq_add_of_sub_eq ?_
    rw [← sub_mul, mul_inv_cancel₀ (hsub j)]
  have hneg : ∀ j : Fin n, ((ω ^ (j : ℕ) - z : ZMod p))⁻¹ = -(z - ω ^ (j : ℕ))⁻¹ := by
    intro j
    rw [← inv_neg, neg_sub]
  calc ∑ j : Fin n, ω ^ (j : ℕ) * (ω ^ (j : ℕ) - z)⁻¹
      = ∑ j : Fin n, (1 + z * -(z - ω ^ (j : ℕ))⁻¹) := by
        refine Finset.sum_congr rfl fun j _ => ?_
        rw [hsplit j, hneg j]
    _ = (n : ZMod p) + z * -(∑ j : Fin n, (z - ω ^ (j : ℕ))⁻¹) := by
        rw [Finset.sum_add_distrib, ← Finset.mul_sum, Finset.sum_neg_distrib]
        congr 1
        simp [Finset.card_univ]
    _ = -(n : ZMod p) * (z ^ n - 1)⁻¹ := by
        rw [sum_inv_linear hn hprim hz]
        have h1 : z ^ (n - 1) * z = z ^ n := by
          rw [← pow_succ, Nat.sub_add_cancel hn]
        have h2 : z * ((n : ZMod p) * z ^ (n - 1) * (z ^ n - 1)⁻¹) =
            (n : ZMod p) * z ^ n * (z ^ n - 1)⁻¹ := by
          rw [← h1]
          ring
        rw [mul_neg, h2]
        field_simp
        ring

theorem evaluate_out_domain (hn : 0 < n) (hnp : n < p) {z : ZMod p} (hv : ¬ z.val < n)
    (hz : ∀ j : Fin n, z ≠ ω ^ (j : ℕ)) (f : Fin n → ZMod p) :
    evaluate p n ω f z = some (∑ j : Fin n,
      (zdiv p (zdiv p (z ^ n - 1) (n : ZMod p) * ω ^ (j : ℕ)) (z - ω ^ (j : ℕ))) * f j) := by
  have hvn : (((n : ℕ) : ZMod p)).val = n := ZMod.val_cast_of_lt hnp
  unfold evaluate computeBarycentricCoefficients
  rw [dif_neg hv, if_neg (by rw [hvn]; exact hv), if_neg (natCast_n_ne_zero hn hnp),
    if_neg (not_exists.mpr hz), Option.map_some']

theorem sum_omega_qOut (hn : 0 < n) (hnp : n < p) (hω1 : ω ^ n = 1)
    (hω2 : ∀ l, l < n → 0 < l → ω ^ l ≠ 1) (f : Fin n → ZMod p) {z : ZMod p}
    (hz : ∀ j : Fin n, z ≠ ω ^ (j : ℕ)) :
    ∑ j : Fin n, ω ^ (j : ℕ) *
      (zdiv p (f j - ∑ k : Fin n,
          (zdiv p (zdiv p (z ^ n - 1) (n : ZMod p) * ω ^ (k : ℕ)) (z - ω ^ (k : ℕ))) * f k)
        (ω ^ (j : ℕ) - z)) = 0 := by
  have hprim := isPrimRoot_of hn hω1 hω2
  have hne := vanish_ne_zero hn hprim hz
  have hN := natCast_n_ne_zero hn hnp
  have hconv1 : (∑ k : Fin n,
      (zdiv p (zdiv p (z ^ n - 1) (n : ZMod p) * ω ^ (k : ℕ)) (z - ω ^ (k : ℕ))) * f k) =
        ∑ k : Fin n, (((z ^ n - 1) / (n : ZMod p) * ω ^ (k : ℕ)) / (z - ω ^ (k : ℕ))) * f k :=
    Finset.sum_congr rfl fun k _ => by
      rw [zdiv_eq_div _ hN, zdiv_eq_div _ (sub_ne_zero.mpr (hz k))]
  have hconv2 : ∀ (j : Fin n) (w : ZMod p), zdiv p w (ω ^ (j : ℕ) - z) =
      w / (ω ^ (j : ℕ) - z) := fun j w =>
    zdiv_eq_div _ (sub_ne_zero.mpr (hz j).symm)
  simp only [hconv1, hconv2]
  set t : ZMod p := (z ^ n - 1) / (n : ZMod p) with hts
  set A : ZMod p := ∑ j : Fin n, ω ^ (j : ℕ) * f j * (ω ^ (j : ℕ) - z)⁻¹ with hAs
  set y : ZMod p := ∑ k : Fin n, ((t * ω ^ (k : ℕ)) / (z - ω ^ (k : ℕ))) * f k with hys
  have hy : y = -(t * A) := by
    rw [hys, hAs, Finset.mul_sum, ← Finset.sum_neg_distrib]
    refine Finset.sum_congr rfl fun k _ => ?_
    have hk : (z - ω ^ (k : ℕ) : ZMod p)⁻¹ = -(ω ^ (k : ℕ) - z)⁻¹ := by
      rw [← inv_neg, neg_sub]
    rw [div_eq_mul_inv, hk]
    ring
  have hS : ∑ j : Fin n, ω ^ (j : ℕ) * (ω ^ (j : ℕ) - z)⁻¹ =
      -(n : ZMod p) * (z ^ n - 1)⁻¹ := sum_root_inv_sub hn hprim hz
  have hexpand : ∑ j : Fin n, ω ^ (j : ℕ) * ((f j - y) / (ω ^ (j : ℕ) - z)) =
      A - y * (∑ j : Fin n, ω ^ (j : ℕ) * (ω ^ (j : ℕ) - z)⁻¹) := by
    rw [hAs, Finset.mul_sum, ← Finset.sum_sub_distrib]
    refine Finset.sum_congr rfl fun j _ => ?_
    rw [div_eq_mul_inv]
    ring
  rw [hexpand, hS, hy]
  have ht : t * (n : ZMod p) = z ^ n - 1 := div_mul_cancel₀ _ hN
  have hA1 : A - -(t * A) * (-(n : ZMod p) * (z ^ n - 1)⁻¹) =
      A * (1 - t * (n : ZMod p) * (z ^ n - 1)⁻¹) := by ring
  rw [hA1, ht, mul_inv_cancel₀ hne, sub_self, mul_zero]

theorem out_domain_core (hn : 0 < n) (hnp : n < p) (hω1 : ω ^ n = 1)
    (hω2 : ∀ l, l < n → 0 < l → ω ^ l ≠ 1) (f : Fin n → ZMod p) {z : ZMod p}
    (hgt : n < z.val) (hz : ∀ j : Fin n, z ≠ ω ^ (j : ℕ)) :
    ∃ pf : KZGProofM p, provePoint p n ω α f z = some pf ∧
      verifyPoint p n ω α (∑ j : Fin n, lagrangeCommitments p n ω α j * f j) z pf =
        true := by
  have hvn : (((n : ℕ) : ZMod p)).val = n := ZMod.val_cast_of_lt hnp
  have hv : ¬ z.val < n := by omega
  unfold provePoint
  rw [evaluate_out_domain hn hnp hv hz f, Option.some_bind']
  rw [if_neg (show ¬ z.val ≤ (((n : ℕ) : ZMod p)).val by rw [hvn]; omega)]
  unfold diviveByVanishingOutsideDomain
  rw [evaluate_out_domain hn hnp hv hz f, Option.some_bind',
    if_neg (not_exists.mpr hz), Option.some_bind', innerProduct_ofFn, Option.map_some']
  refine ⟨_, rfl, ?_⟩
  unfold verifyPoint pairing
  rw [if_neg (show ¬ z.val < (((n : ℕ) : ZMod p)).val by rw [hvn]; exact hv)]
  rw [decide_eq_true_eq, mul_one]
  refine commit_mul_sub hn hnp hω1 hω2 f _ z _ (fun j => ?_) (sum_omega_qOut hn hnp hω1 hω2 f hz)
  have hnz : (ω ^ (j : ℕ) - z : ZMod p) ≠ 0 := sub_ne_zero.mpr (hz j).symm
  rw [zdiv_eq_div _ hnz, div_mul_cancel₀ _ hnz]

theorem verify_bump (C point : ZMod p) (pf : KZGProofM p)
    (h : verifyPoint p n ω α C point pf = true) :
    verifyPoint p n ω α C point ⟨pf.proof, pf.y + 1⟩ = false := by
  have key : ∀ P : ZMod p, pf.proof * (α - P) = (C - pf.y) * 1 →
      ¬ (pf.proof * (α - P) = (C - (pf.y + 1)) * 1) := by
    intro P h1 h2
    rw [h1] at h2
    rw [mul_one, mul_one] at h2
    have h3 := sub_right_inj.mp h2
    have h4 : (1 : ZMod p) = 0 := self_eq_add_right.mp h3
    exact one_ne_zero h4
  unfold verifyPoint pairing at h ⊢
  dsimp only at h ⊢
  by_cases hc : point.val < (((n : ℕ) : ZMod p)).val
  · rw [if_pos hc] at h ⊢
    rw [decide_eq_true_eq] at h
    rw [decide_eq_false_iff_not]
    exact key _ h
  · rw [if_neg hc] at h ⊢
    rw [decide_eq_true_eq] at h
    rw [decide_eq_false_iff_not]
    exact key _ h

end Lemmas

/-! ## Claims -/

/-- Claim C1: Completeness — for every data vector of length at most the key's
`max_size` and every index `i < len(data)`, verifying the proof produced by
`prove` for index `i` against the commitment produced by `commit` returns
`true`. -/
theorem claim_C1_completeness (p : ℕ) [Fact p.Prime] (n : ℕ) (ω α : ZMod p)
    (hn : 0 < n) (hnp : n < p) (hω1 : ω ^ n = 1)
    (hω2 : ∀ l, l < n → 0 < l → ω ^ l ≠ 1)
    (d : List (ZMod p)) (hd : d.length ≤ n) (i : ℕ) (hi : i < d.length) :
    ∃ C pf, commit p n ω α (List.ofFn (padData p n d)) = some (.ok C) ∧
      prove p n ω α (padData p n d) i = some pf ∧
      verify p n ω α C i pf = true := by
  have hin : i < n := lt_of_lt_of_le hi hd
  refine ⟨∑ j : Fin n, lagrangeCommitments p n ω α j * padData p n d j,
    ⟨∑ j : Fin n, lagrangeCommitments p n ω α j * qInDomain p n ω (padData p n d) ⟨i, hin⟩ j,
      padData p n d ⟨i, hin⟩⟩, ?_, ?_, ?_⟩
  · unfold commit
    rw [innerProduct_ofFn, Option.map_some']
  · exact provePoint_in_domain hn hnp hω1 hω2 _ hin
  · refine (verifyPoint_in_domain_iff hnp _ _ _ hin).mpr ?_
    exact commit_mul_sub hn hnp hω1 hω2 (padData p n d) _ _ _
      (fun j => qIn_spec hn hω1 hω2 (padData p n d) ⟨i, hin⟩ j)
      (sum_omega_qIn hn hnp hω1 (padData p n d) ⟨i, hin⟩)

/-- Witness for C1 at `p = 17`, `n = 4`, `ω = 4`, `α = 3`, data `[5, 6, 7]`,
index `1`. -/
theorem claim_C1_completeness_witness :
    ((0 : ℕ) < 4 ∧ 4 < 17 ∧ (4 : ZMod 17) ^ 4 = 1 ∧
      (∀ l, l < 4 → 0 < l → (4 : ZMod 17) ^ l ≠ 1) ∧
      ([5, 6, 7] : List (ZMod 17)).length ≤ 4 ∧ 1 < ([5, 6, 7] : List (ZMod 17)).length) ∧
    ∃ C pf, commit 17 4 4 3 (List.ofFn (padData 17 4 [5, 6, 7])) = some (.ok C) ∧
      prove 17 4 4 3 (padData 17 4 [5, 6, 7]) 1 = some pf ∧
      verify 17 4 4 3 C 1 pf = true :=
  ⟨⟨by decide, by decide, by decide, by decide, by decide, by decide⟩,
    claim_C1_completeness 17 4 4 3 (by decide) (by decide) (by decide) (by decide)
      [5, 6, 7] (by decide) 1 (by decide)⟩

/-- Claim C2: Soundness regression — whenever the honestly produced proof
verifies, replacing the claimed evaluation `y` by `y + 1` while keeping the
quotient commitment, vector commitment and index makes `verify` return
`false`. -/
theorem claim_C2_soundness_bump (p : ℕ) [Fact p.Prime] (n : ℕ) (ω α : ZMod p)
    (d : List (ZMod p)) (i : ℕ) (C : ZMod p) (pf : KZGProofM p)
    (hC : commit p n ω α (List.ofFn (padData p n d)) = some (.ok C))
    (hp : prove p n ω α (padData p n d) i = some pf)
    (hv : verify p n ω α C i pf = true) :
    verify p n ω α C i ⟨pf.proof, pf.y + 1⟩ = false :=
  verify_bump C ((i : ℕ) : ZMod p) pf hv

/-- Witness for C2 at `p = 17`, `n = 4`, `ω = 4`, `α = 3`, data `[5, 6, 7]`,
index `1`; the honest proof is `(12, 6)` and the commitment is `11`. -/
theorem claim_C2_soundness_bump_witness :
    (commit 17 4 4 3 (List.ofFn (padData 17 4 [5, 6, 7])) = some (.ok 11) ∧
      prove 17 4 4 3 (padData 17 4 [5, 6, 7]) 1 = some ⟨12, 6⟩ ∧
      verify 17 4 4 3 11 1 ⟨12, 6⟩ = true) ∧
    verify 17 4 4 3 11 1 ⟨12, 6 + 1⟩ = false :=
  ⟨⟨by decide, by decide, by decide⟩,
    claim_C2_soundness_bump 17 4 4 3 [5, 6, 7] 1 11 ⟨12, 6⟩
      (by decide) (by decide) (by decide)⟩

/-- Claim C3 (code bug): amortized agreement fails.  On the concrete instance
`p = 17`, `n = 4`, `ω = 4`, `α = 3`, data `[1, 2, 3, 4]` (interpolated degree
3, so the external provider returns the size-8 domain with root `2` for the
requested size 6), `prove_all_points` panics (`none`): it maps all 8
inverse-transform outputs to proofs, indexing `data[i]` for `i ≥ 4` out of
bounds — while `prove_point` succeeds at every domain index. -/
theorem claim_C3_amortized_bug :
    proveAllPoints 17 4 4 3 (fun m => if m = 6 then some (8, 2) else none)
        (padData 17 4 [1, 2, 3, 4]) = none ∧
      (prove 17 4 4 3 (padData 17 4 [1, 2, 3, 4]) 0).isSome = true ∧
      (prove 17 4 4 3 (padData 17 4 [1, 2, 3, 4]) 3).isSome = true :=
  ⟨by decide, by decide, by decide⟩

/-- Counterexample to C4 as stated: at `p = 17`, `n = 4`, `ω = 4`, `α = 3`,
data `[1, 0, 0]` and the evaluation point `6` (an integer index beyond
`max_size = 4`, not covered by the data), `prove_point` succeeds but its
claimed evaluation is `1`, not field zero. -/
theorem claim_C4_counterexample :
    (provePoint 17 4 4 3 (padData 17 4 [1, 0, 0]) ((6 : ℕ) : ZMod 17)).map KZGProofM.y =
        some 1 ∧
      (1 : ZMod 17) ≠ 0 :=
  ⟨by decide, by decide⟩

/-- Claim C4, amended: for integer points `z` with `len(data) ≤ z < max_size`
the proof's evaluation is field zero and `verify_point` accepts; for a point
`z` beyond `max_size` (one whose canonical representative exceeds `max_size`
and which is not a domain point) `prove_point` still succeeds and
`verify_point` accepts, but the claimed evaluation is the barycentric
evaluation of the padded data, which need not be zero. -/
theorem claim_C4_amended (p : ℕ) [Fact p.Prime] (n : ℕ) (ω α : ZMod p)
    (hn : 0 < n) (hnp : n < p) (hω1 : ω ^ n = 1)
    (hω2 : ∀ l, l < n → 0 < l → ω ^ l ≠ 1)
    (d : List (ZMod p)) (hd : d.length ≤ n) (C : ZMod p)
    (hC : commit p n ω α (List.ofFn (padData p n d)) = some (.ok C)) :
    (∀ z : ℕ, d.length ≤ z → z < n →
      ∃ pf, provePoint p n ω α (padData p n d) ((z : ℕ) : ZMod p) = some pf ∧
        pf.y = 0 ∧ verifyPoint p n ω α C ((z : ℕ) : ZMod p) pf = true) ∧
    (∀ z : ZMod p, n < z.val → (∀ j : Fin n, z ≠ ω ^ (j : ℕ)) →
      ∃ pf, provePoint p n ω α (padData p n d) z = some pf ∧
        verifyPoint p n ω α C z pf = true) := by
  have hCval : C = ∑ j : Fin n, lagrangeCommitments p n ω α j * padData p n d j := by
    have h2 : commit p n ω α (List.ofFn (padData p n d)) =
        some (.ok (∑ j : Fin n, lagrangeCommitments p n ω α j * padData p n d j)) := by
      unfold commit
      rw [innerProduct_ofFn, Option.map_some']
    rw [h2] at hC
    exact (Except.ok.inj (Option.some.inj hC)).symm
  subst hCval
  constructor
  · intro z hz1 hz2
    refine ⟨⟨∑ j : Fin n,
        lagrangeCommitments p n ω α j * qInDomain p n ω (padData p n d) ⟨z, hz2⟩ j,
      padData p n d ⟨z, hz2⟩⟩, provePoint_in_domain hn hnp hω1 hω2 _ hz2, ?_, ?_⟩
    · exact List.getD_eq_default _ _ hz1
    · refine (verifyPoint_in_domain_iff hnp _ _ _ hz2).mpr ?_
      exact commit_mul_sub hn hnp hω1 hω2 (padData p n d) _ _ _
        (fun j => qIn_spec hn hω1 hω2 (padData p n d) ⟨z, hz2⟩ j)
        (sum_omega_qIn hn hnp hω1 (padData p n d) ⟨z, hz2⟩)
  · intro z h1 h2
    exact out_domain_core hn hnp hω1 hω2 (padData p n d) h1 h2

/-- Witness for the amended C4 at `p = 17`, `n = 4`, `ω = 4`, `α = 3`, data
`[5, 6, 7]` (commitment `11`), padding index `3` and out-of-range point `6`. -/
theorem claim_C4_amended_witness :
    ((0 : ℕ) < 4 ∧ 4 < 17 ∧ (4 : ZMod 17) ^ 4 = 1 ∧
      (∀ l, l < 4 → 0 < l → (4 : ZMod 17) ^ l ≠ 1) ∧
      ([5, 6, 7] : List (ZMod 17)).length ≤ 4 ∧
      commit 17 4 4 3 (List.ofFn (padData 17 4 [5, 6, 7])) = some (.ok 11)) ∧
    (∃ pf, provePoint 17 4 4 3 (padData 17 4 [5, 6, 7]) ((3 : ℕ) : ZMod 17) = some pf ∧
      pf.y = 0 ∧ verifyPoint 17 4 4 3 11 ((3 : ℕ) : ZMod 17) pf = true) ∧
    (∃ pf, provePoint 17 4 4 3 (padData 17 4 [5, 6, 7]) (6 : ZMod 17) = some pf ∧
      verifyPoint 17 4 4 3 11 (6 : ZMod 17) pf = true) :=
  ⟨⟨by decide, by decide, by decide, by decide, by decide, by decide⟩,
    (claim_C4_amended 17 4 4 3 (by decide) (by decide) (by decide) (by decide)
        [5, 6, 7] (by decide) 11 (by decide)).1 3 (by decide) (by decide),
    (claim_C4_amended 17 4 4 3 (by decide) (by decide) (by decide) (by decide)
        [5, 6, 7] (by decide) 11 (by decide)).2 6 (by decide) (by decide)⟩

/-- Claim C5 (code bug): `prove_point` tests `point <= max_size` (line 144 of
`src/vector-commit/src/kzg/mod.rs`) while `verify_point` tests
`point < max_size` (line 172), so the two disagree at `point = max_size`
exactly.  At `p = 13`, `n = 4`, `ω = 5`, `α = 2`, data `[1, 2, 3]` and
`point = 4 = max_size`: `prove_point` takes the in-domain branch and panics
(out-of-bounds index 4 into the length-4 vanishing table), while
`verify_point` treats the same point as a raw out-of-domain point and
accepts a proof of the raw-point pairing equation. -/
theorem claim_C5_boundary_bug :
    provePoint 13 4 5 2 (padData 13 4 [1, 2, 3]) ((4 : ℕ) : ZMod 13) = none ∧
      verifyPoint 13 4 5 2 11 ((4 : ℕ) : ZMod 13) ⟨1, 0⟩ = true :=
  ⟨by decide, by decide⟩

/-- Counterexample to C6 as stated: at `p = 17`, `size = 4`, `ω = 4`, the
in-domain point `ω^1 = 4` has canonical representative `4 ≥ size`, so it
escapes the small-integer fast path and the general branch divides by
`point - ω^1 = 0`: the function panics (`none`) instead of being total. -/
theorem claim_C6_counterexample :
    computeBarycentricCoefficients 17 4 (4 : ZMod 17) ((4 : ZMod 17) ^ (1 : ℕ)) = none :=
  by decide

/-- Claim C6, amended: the fast path covers exactly the points whose canonical
representative is `< size`; `compute_barycentric_coefficients` returns a
value iff the point is such a small integer or differs from every domain
point `ω^i` — at a domain point with representative `≥ size` the general
branch divides by zero. -/
theorem claim_C6_amended (p : ℕ) [Fact p.Prime] (n : ℕ) (ω : ZMod p)
    (hn : 0 < n) (hnp : n < p) (z : ZMod p) :
    (computeBarycentricCoefficients p n ω z).isSome = true ↔
      (z.val < n ∨ ∀ j : Fin n, z ≠ ω ^ (j : ℕ)) := by
  have hvn : (((n : ℕ) : ZMod p)).val = n := ZMod.val_cast_of_lt hnp
  unfold computeBarycentricCoefficients
  rw [hvn]
  by_cases h1 : z.val < n
  · rw [if_pos h1]
    simp [h1]
  · rw [if_neg h1, if_neg (natCast_n_ne_zero hn hnp)]
    by_cases h2 : ∃ i : Fin n, z = ω ^ (i : ℕ)
    · rw [if_pos h2]
      simp only [Option.isSome_none, Bool.false_eq_true, false_iff, not_or, not_forall]
      exact ⟨h1, by push_neg; exact h2⟩
    · rw [if_neg h2]
      simp only [Option.isSome_some, true_iff]
      exact Or.inr (not_exists.mp h2)

/-- Witness for the amended C6 at `p = 17`, `n = 4`, `ω = 4`, `z = 5` (not a
small integer below the size, and not a domain point). -/
theorem claim_C6_amended_witness :
    ((0 : ℕ) < 4 ∧ 4 < 17) ∧
    ((computeBarycentricCoefficients 17 4 4 (5 : ZMod 17)).isSome = true ↔
      ((5 : ZMod 17).val < 4 ∨ ∀ j : Fin 4, (5 : ZMod 17) ≠ (4 : ZMod 17) ^ (j : ℕ))) :=
  ⟨⟨by decide, by decide⟩,
    claim_C6_amended 17 4 4 (by decide) (by decide) 5⟩

/-- Claim C7: Barycentric exactness — for every integer `i < size`,
`compute_barycentric_coefficients` at the field element of `i` returns
exactly the unit vector at position `i`. -/
theorem claim_C7_barycentric_exact (p : ℕ) [Fact p.Prime] (n : ℕ) (ω : ZMod p)
    (hnp : n < p) (i : ℕ) (hi : i < n) :
    ∃ b, computeBarycentricCoefficients p n ω ((i : ℕ) : ZMod p) = some b ∧
      ∀ j : Fin n, b j = if (j : ℕ) = i then 1 else 0 := by
  have hvi : (((i : ℕ) : ZMod p)).val = i := ZMod.val_cast_of_lt (hi.trans hnp)
  have hvn : (((n : ℕ) : ZMod p)).val = n := ZMod.val_cast_of_lt hnp
  unfold computeBarycentricCoefficients
  rw [if_pos (by rw [hvi, hvn]; exact hi)]
  exact ⟨_, rfl, fun j => by rw [hvi]⟩

/-- Witness for C7 at `p = 17`, `n = 4`, `ω = 4`, `i = 2`. -/
theorem claim_C7_barycentric_exact_witness :
    (4 < 17 ∧ (2 : ℕ) < 4) ∧
    ∃ b, computeBarycentricCoefficients 17 4 4 ((2 : ℕ) : ZMod 17) = some b ∧
      ∀ j : Fin 4, b j = if (j : ℕ) = 2 then 1 else 0 :=
  ⟨⟨by decide, by decide⟩,
    claim_C7_barycentric_exact 17 4 4 (by decide) 2 (by decide)⟩

/-- Counterexample to C8 as stated: with a generator that succeeds and an
external domain provider that has no domain of the requested size, `setup`
panics on the `unwrap` of `D::new` (`none`); it does not fail with
`InvalidDomain` (its error type `PointGeneratorError` cannot even express
that error). -/
theorem claim_C8_counterexample :
    setup 17 (fun _ => none) 4 ⟨fun m => .ok (List.replicate m 1), some 2⟩ = none :=
  by decide

/-- Claim C8, amended: `setup` propagates the generator's
`OutOfBounds`/`InvalidPoint` errors as its own error result; when the
generator succeeds but no evaluation domain of size `max_items` exists,
`setup` panics on an `unwrap` instead of returning `InvalidDomain`. -/
theorem claim_C8_amended (p : ℕ) [Fact p.Prime]
    (domainNew : ℕ → Option (ℕ × ZMod p)) (maxItems : ℕ) (g : KZGGen p) :
    (∀ e, g.gen maxItems = .error e → setup p domainNew maxItems g = some (.error e)) ∧
    (∀ pts, g.gen maxItems = .ok pts → domainNew maxItems = none →
      setup p domainNew maxItems g = none) := by
  constructor
  · intro e he
    unfold setup
    rw [he]
  · intro pts hp hd
    unfold setup
    rw [hp, hd]

/-- Witness for the amended C8: a failing generator's error is propagated,
and a succeeding generator with no available domain makes `setup` panic. -/
theorem claim_C8_amended_witness :
    setup 17 (fun _ => none) 4 ⟨fun _ => .error .InvalidPoint, some 2⟩ =
        some (.error .InvalidPoint) ∧
      setup 17 (fun _ => none) 4 ⟨fun m => .ok (List.replicate m 1), some 2⟩ = none :=
  ⟨(claim_C8_amended 17 (fun _ => none) 4 ⟨fun _ => .error .InvalidPoint, some 2⟩).1
      .InvalidPoint (by decide),
    (claim_C8_amended 17 (fun _ => none) 4 ⟨fun m => .ok (List.replicate m 1), some 2⟩).2
      (List.replicate 4 1) (by decide) (by decide)⟩

/-- Counterexample to C9 as stated: at `p = 17`, `n = 4`, `ω = 4`, `α = 3`,
committing a data vector of length 8 > `max_size` does not return an error —
`inner_product` indexes the key's commitment vector out of bounds and the
call panics (`none`). -/
theorem claim_C9_counterexample :
    commit 17 4 4 3 [1, 2, 3, 4, 5, 6, 7, 8] = none :=
  by decide

/-- Claim C9, amended: `commit` performs no bound check.  For data of length
at most `max_size` it returns `Ok` of the inner product of the key's
Lagrange commitments with the data values; for longer data it panics with an
out-of-bounds index instead of returning an error. -/
theorem claim_C9_amended (p : ℕ) [Fact p.Prime] (n : ℕ) (ω α : ZMod p)
    (d : List (ZMod p)) :
    (d.length ≤ n → commit p n ω α d = some (.ok (∑ i : Fin d.length,
      (List.ofFn (lagrangeCommitments p n ω α)).getD (i : ℕ) 0 * d.get i))) ∧
    (n < d.length → commit p n ω α d = none) := by
  constructor
  · intro h
    unfold commit innerProduct
    rw [dif_pos (by simpa using h)]
    rw [Option.map_some']
    congr 2
    refine Finset.sum_congr rfl fun i _ => ?_
    congr 1
    rw [List.getD_eq_getElem _ _ (by simpa using lt_of_lt_of_le i.isLt h),
      List.get_eq_getElem]
  · intro h
    unfold commit innerProduct
    rw [dif_neg (by simp; omega)]
    rfl

/-- Witness for the amended C9 at `p = 17`, `n = 4`, `ω = 4`, `α = 3`: a
length-3 vector commits, a length-8 vector panics. -/
theorem claim_C9_amended_witness :
    commit 17 4 4 3 [5, 6, 7] = some (.ok (∑ i : Fin ([5, 6, 7] : List (ZMod 17)).length,
        (List.ofFn (lagrangeCommitments 17 4 4 3)).getD (i : ℕ) 0 *
          ([5, 6, 7] : List (ZMod 17)).get i)) ∧
      commit 17 4 4 3 [1, 2, 3, 4, 5, 6, 7, 8] = none :=
  ⟨(claim_C9_amended 17 4 4 3 [5, 6, 7]).1 (by decide),
    (claim_C9_amended 17 4 4 3 [1, 2, 3, 4, 5, 6, 7, 8]).2 (by decide)⟩

/-- Counterexample to C10 as stated: a generator whose `secret()` is `None`
but whose point generation fails makes `setup` return the generator error —
it does not panic, because `gen.gen(max_items)?` returns before the
`unwrap` of the secret is reached. -/
theorem claim_C10_counterexample :
    setup 17 (fun _ => none) 4 ⟨fun _ => .error .OutOfBounds, none⟩ =
      some (.error .OutOfBounds) :=
  by decide

/-- Claim C10, amended: when the generator succeeds and a domain of the
requested size exists, a missing secret makes `setup` panic on the `unwrap`;
and `setup` completes normally only when the generator exposes its trapdoor
scalar. -/
theorem claim_C10_amended (p : ℕ) [Fact p.Prime]
    (domainNew : ℕ → Option (ℕ × ZMod p)) (maxItems : ℕ) (g : KZGGen p) :
    (∀ pts N w, g.gen maxItems = .ok pts → domainNew maxItems = some (N, w) →
      g.secret = none → setup p domainNew maxItems g = none) ∧
    (∀ k, setup p domainNew maxItems g = some (.ok k) → g.secret.isSome = true) := by
  constructor
  · intro pts N w h1 h2 h3
    unfold setup
    rw [h1, h2, h3]
  · intro k h
    unfold setup at h
    rcases hgen : g.gen maxItems with e | pts
    · rw [hgen] at h
      exact absurd (Option.some.inj h) (fun hh => Except.noConfusion hh)
    · rw [hgen] at h
      rcases hdom : domainNew maxItems with _ | ⟨N, w⟩
      · rw [hdom] at h
        exact Option.noConfusion h
      · rw [hdom] at h
        rcases hsec : g.secret with _ | s
        · rw [hsec] at h
          exact Option.noConfusion h
        · rfl

/-- Witness for the amended C10: with a succeeding generator and an existing
domain, a missing secret panics; and a completed setup at the same domain
has a present secret. -/
theorem claim_C10_amended_witness :
    setup 17 (fun _ => some (4, 4)) 4 ⟨fun m => .ok (List.replicate m 1), none⟩ = none ∧
      (⟨fun m => .ok (List.replicate m 1), some 2⟩ : KZGGen 17).secret.isSome = true :=
  ⟨(claim_C10_amended 17 (fun _ => some (4, 4)) 4
        ⟨fun m => .ok (List.replicate m 1), none⟩).1
      (List.replicate 4 1) 4 4 (by decide) (by decide) (by decide),
    (claim_C10_amended 17 (fun _ => some (4, 4)) 4
        ⟨fun m => .ok (List.replicate m 1), some 2⟩).2
      ⟨4, [1, 0, 0, 0], 2⟩ (by decide)⟩

end VectorCommit
